import Mathlib

/-!
# Verification of the pallet-call extraction pass

This development embeds the syntax-tree rewriting pass of
`src/src/lib.rs` (`PalletCallConfig` / `PalletCall::expand`): given the
declaration of a dispatch enum whose field types may be bound to a single
context type parameter (such as `T::Balance`), the pass emits a standalone
enum in which every context-bound type is replaced by a deduplicated
generic parameter.

The embedding mirrors the source faithfully, including its use of a
`BTreeMap` (modelled as a key-sorted association list), its `skip_while`
sentinel handling, and the exact spots where configuration fields are
read.  External collaborators (`syn` parsing, `quote` token rendering,
`Inflector` case conversion, `synstructure` type-parameter detection) are
modelled at their interface boundary.
-/

namespace PalletExtract

/-- An attribute, modelled at the `syn::Attribute` boundary: the code only
inspects `attr.path.is_ident("doc")`, so we keep the path as a plain
string together with the remaining tokens. -/
structure Attr where
  path : String
  tokens : String
deriving DecidableEq, Repr

/-- Whether an attribute is a documentation attribute (`#[doc = ...]`),
as tested by `attr.path.is_ident("doc")` in the source. -/
def Attr.isDoc (a : Attr) : Bool := a.path == "doc"

/-- `remove_doc_attributes` from the source: retain every attribute whose
path is not the single identifier `doc`. -/
def removeDocAttributes (attrs : List Attr) : List Attr :=
  attrs.filter (fun a => !(a.isDoc))

/-- The `<Ty as Trait>` qualifier of a qualified type path, modelled by
the segment lists of the qualifying type and the trait. -/
structure QSelfT where
  tyPath : List String
  traitPath : List String
deriving DecidableEq, Repr

/-- A `syn::TypePath`: an optional qualified-self part plus the path
segments that follow it (e.g. `T::Balance` is `⟨none, [T, Balance]⟩`,
and `<T::Lookup as StaticLookup>::Source` keeps `Source` as the final
segment). -/
structure TypePathT where
  qself : Option QSelfT
  segments : List String
deriving DecidableEq, Repr

/-- Render a segment list the way `quote!` prints it (segments joined by
a spaced `::` token). -/
def renderSegs (segs : List String) : String := String.intercalate " :: " segs

/-- `quote!(#path).to_string()`: the canonical textual form of a type
path used as the deduplication key of the generics map. -/
def TypePathT.render (p : TypePathT) : String :=
  match p.qself with
  | none => renderSegs p.segments
  | some q =>
      "< " ++ renderSegs q.tyPath ++ " as " ++ renderSegs q.traitPath ++ " > :: "
        ++ renderSegs p.segments

/-- `binding.referenced_ty_params().is_empty()` boundary: whether the
type path syntactically mentions the declaration's bound context type
parameter. -/
def TypePathT.mentions (tp : String) (p : TypePathT) : Bool :=
  p.segments.contains tp ||
    (match p.qself with
     | none => false
     | some q => q.tyPath.contains tp || q.traitPath.contains tp)

/-- A field type: the source only distinguishes `Type::Path` from every
other shape (which it rejects). -/
inductive Ty where
  | path (p : TypePathT)
  | other (desc : String)
deriving DecidableEq, Repr

/-- Whether a type is a (dotted) type path. -/
def Ty.isPath : Ty → Bool
  | .path _ => true
  | .other _ => false

/-- A field of a variant: attributes, type, and a source position used
for error reporting (`field.span()`). -/
structure Field where
  attrs : List Attr
  ty : Ty
  span : Nat
deriving DecidableEq, Repr

/-- An enum variant as in `syn::Variant`. -/
structure Variant where
  ident : String
  fields : List Field
  discriminant : Option Int
  attrs : List Attr
deriving DecidableEq, Repr

/-- The parsed input declaration (`syn::DeriveInput` restricted to the
enum shape the pass consumes): declaration attributes, enum name, the
single bound context type parameter, and the variants in declaration
order. -/
structure DeriveInput where
  attrs : List Attr
  ident : String
  typaram : String
  variants : List Variant
deriving DecidableEq, Repr

/-- `ParameterStyle` from the source: how call parameters are expanded
as variant fields. -/
inductive ParameterStyle where
  | unnamed
  | named (conv : Option (String → String))

instance : Inhabited ParameterStyle := ⟨.unnamed⟩

/-- `PalletCallConfig`: the rewrite options, with the defaults produced
by `Default::default()`. -/
structure PalletCallConfig where
  name : Option String := none
  variant_name_conversion : Option (String → String) := none
  generic_name_conversion : Option (TypePathT → String) := none
  call_parameter_style : ParameterStyle := .unnamed
  keep_comments : Bool := false
  codec_crate : Option String := none
  runtime_debug : Option String := none
  additional_attr : List Attr := []
  additional_derives : List String := []

/-- `push_attr`: append an additional attribute, preserving call order. -/
def PalletCallConfig.push_attr (cfg : PalletCallConfig) (a : Attr) : PalletCallConfig :=
  { cfg with additional_attr := cfg.additional_attr ++ [a] }

/-- `push_derive`: append an additional derive path, preserving call
order. -/
def PalletCallConfig.push_derive (cfg : PalletCallConfig) (p : String) : PalletCallConfig :=
  { cfg with additional_derives := cfg.additional_derives ++ [p] }

/-- The errors the pass can return (`syn::Error` classified by the site
that produced it). -/
inductive SynError where
  | invalidIdent (s : String)
  | invalidPath (s : String)
  | unsupportedFieldType (span : Nat)
deriving DecidableEq, Repr

/-- First character of a Rust identifier. -/
def isIdentStart (c : Char) : Bool := c.isAlpha || c = '_'

/-- Continuation character of a Rust identifier. -/
def isIdentCont (c : Char) : Bool := c.isAlphanum || c = '_'

/-- `syn::parse_str::<Ident>` boundary: whether a string parses as a
plain identifier. -/
def isValidIdent (s : String) : Bool :=
  match s.toList with
  | [] => false
  | c :: cs => isIdentStart c && cs.all isIdentCont && s != "_"

/-- Split a character list at `::` separators. -/
def splitColons : List Char → List (List Char)
  | [] => [[]]
  | ':' :: ':' :: rest => [] :: splitColons rest
  | c :: rest =>
    match splitColons rest with
    | [] => [[c]]
    | w :: ws => (c :: w) :: ws

/-- `syn::parse_str::<Path>` boundary: whether a string parses as a
`::`-separated path of identifiers. -/
def isValidPathStr (s : String) : Bool :=
  (splitColons s.toList).all (fun w => isValidIdent (String.mk w))

/-- ASCII lower-casing of a string (`to_lowercase` boundary). -/
def strLower (s : String) : String := String.mk (s.toList.map Char.toLower)

/-- Split a character list at `_` separators (like `split('_')`). -/
def splitUnderscore : List Char → List (List Char)
  | [] => [[]]
  | '_' :: rest => [] :: splitUnderscore rest
  | c :: rest =>
    match splitUnderscore rest with
    | [] => [[c]]
    | w :: ws => (c :: w) :: ws

/-- Capitalize one word: upper-case its first character. -/
def capitalizeWord (w : List Char) : String :=
  match w with
  | [] => ""
  | c :: cs => String.mk (c.toUpper :: cs)

/-- `Inflector::to_pascal_case` boundary, the default variant-name
conversion: split on underscores and capitalize each word
(`set_balance` becomes `SetBalance`, `__ignore` becomes `Ignore`). -/
def pascalCase (s : String) : String :=
  String.join ((splitUnderscore s.toList).map capitalizeWord)

/-- Lexicographic strict ordering of character lists, mirroring the
byte-wise `Ord` on Rust strings that `BTreeMap<String, _>` sorts by
(the two orders agree on the ASCII strings the pass handles). -/
def charListLt : List Char → List Char → Bool
  | [], [] => false
  | [], _ :: _ => true
  | _ :: _, [] => false
  | c₁ :: t₁, c₂ :: t₂ =>
    if c₁ < c₂ then true
    else if c₂ < c₁ then false
    else charListLt t₁ t₂

/-- Strict ordering of strings, as used by the `BTreeMap` key order. -/
def strLt (a b : String) : Bool := charListLt a.toList b.toList

/-- The generics map of the pass.  The source uses a
`BTreeMap<String, String>`, i.e. an association list kept sorted by key
in ascending string order. -/
abbrev Table := List (String × String)

/-- `generics.entry(key).or_insert_with(|| v)`: insert `(key, v)` at its
sorted position when the key is absent, and return the resulting map
together with the binding's value (the existing value when the key was
already present). -/
def tableInsert : Table → String → String → Table × String
  | [], k, v => ([(k, v)], v)
  | (k', v') :: t, k, v =>
    if strLt k k' then ((k, v) :: (k', v') :: t, v)
    else if k = k' then ((k', v') :: t, v')
    else
      let r := tableInsert t k v
      ((k', v') :: r.1, r.2)

/-- Key lookup in the generics map. -/
def tableLookup : Table → String → Option String
  | [], _ => none
  | (k', v') :: t, k => if k = k' then some v' else tableLookup t k

/-- The keys of the generics map, in map order. -/
def tableKeys (t : Table) : List String := t.map Prod.fst

/-- The generic name for a context-bound type path: the configured
conversion when present, otherwise the rendering of the last path
segment (`T::Balance` yields `Balance`). -/
def genericNameOf (cfg : PalletCallConfig) (p : TypePathT) : String :=
  match cfg.generic_name_conversion with
  | some c => c p
  | none => p.segments.getLast?.getD ""

/-- The variant name for an input variant identifier: the configured
conversion when present, otherwise pascal case. -/
def variantNameOf (cfg : PalletCallConfig) (s : String) : String :=
  match cfg.variant_name_conversion with
  | some c => c s
  | none => pascalCase s

/-- Process one field (`binding`) of a variant, mirroring the body of
the inner loop of `expand`: a non-path type is rejected; a path type
that mentions the context parameter is keyed by its rendering, bound to
a generic name in the map, and rewritten to that single-segment generic;
any other path passes through unchanged. -/
def processBinding (cfg : PalletCallConfig) (tp : String) (tbl : Table) (f : Field) :
    Except SynError (Table × Field) :=
  match f.ty with
  | Ty.path p =>
    if p.mentions tp then
      let r := tableInsert tbl p.render (genericNameOf cfg p)
      if isValidIdent r.2 then
        Except.ok (r.1, { f with ty := Ty.path ⟨none, [r.2]⟩ })
      else Except.error (.invalidIdent r.2)
    else Except.ok (tbl, f)
  | Ty.other _ => Except.error (.unsupportedFieldType f.span)

/-- Process the fields of one variant in order, threading the generics
map. -/
def processFields (cfg : PalletCallConfig) (tp : String) :
    Table → List Field → Except SynError (Table × List Field)
  | tbl, [] => Except.ok (tbl, [])
  | tbl, f :: fs =>
    match processBinding cfg tp tbl f with
    | Except.error e => Except.error e
    | Except.ok r =>
      match processFields cfg tp r.1 fs with
      | Except.error e => Except.error e
      | Except.ok r₂ => Except.ok (r₂.1, r.2 :: r₂.2)

/-- Process one variant: compute and validate the output variant name,
rewrite the fields, filter documentation attributes unless comments are
kept, and carry the discriminant through unchanged. -/
def processVariant (cfg : PalletCallConfig) (tp : String) (tbl : Table) (v : Variant) :
    Except SynError (Table × Variant) :=
  let vname := variantNameOf cfg v.ident
  if isValidIdent vname then
    match processFields cfg tp tbl v.fields with
    | Except.error e => Except.error e
    | Except.ok r =>
      let attrs := if cfg.keep_comments then v.attrs else removeDocAttributes v.attrs
      Except.ok (r.1, { ident := vname, fields := r.2, discriminant := v.discriminant,
                        attrs := attrs })
  else Except.error (.invalidIdent vname)

/-- Process the variants in declaration order, threading the generics
map and collecting the rewritten variants. -/
def processVariants (cfg : PalletCallConfig) (tp : String) :
    Table → List Variant → Except SynError (Table × List Variant)
  | tbl, [] => Except.ok (tbl, [])
  | tbl, v :: vs =>
    match processVariant cfg tp tbl v with
    | Except.error e => Except.error e
    | Except.ok r =>
      match processVariants cfg tp r.1 vs with
      | Except.error e => Except.error e
      | Except.ok r₂ => Except.ok (r₂.1, r.2 :: r₂.2)

/-- The variants the loop of `expand` actually iterates: the source uses
`skip_while`, so only a leading run of variants whose lower-cased name
is `__ignore` is skipped. -/
def processedVariants (d : DeriveInput) : List Variant :=
  d.variants.dropWhile (fun v => strLower v.ident == "__ignore")

/-- Validate a list of generic names as identifiers
(`generics.values().map(syn::parse_str::<Ident>).collect::<Result<..>>`). -/
def checkIdents : List String → Except SynError (List String)
  | [] => Except.ok []
  | s :: ss =>
    if isValidIdent s then
      match checkIdents ss with
      | Except.error e => Except.error e
      | Except.ok r => Except.ok (s :: r)
    else Except.error (.invalidIdent s)

/-- The assembled output declaration, the structured form of the token
stream emitted by `expand`: the derive list, the optional runtime-debug
derive, the additional attributes that are spliced in, the enum name,
the generic parameter list, and the variants. -/
structure CallEnum where
  derives : List String
  runtimeDebug : Option String
  attrs : List Attr
  ident : String
  generics : List String
  variants : List Variant
deriving DecidableEq, Repr

/-- The optional `#[derive(<module>::RuntimeDebug)]` path computed from
the `runtime_debug` configuration field, validated by the `Path`
parser. -/
def runtimeDebugPath (cfg : PalletCallConfig) : Except SynError (Option String) :=
  match cfg.runtime_debug with
  | none => Except.ok none
  | some s =>
    if isValidPathStr (s ++ "::RuntimeDebug") then
      Except.ok (some (s ++ "::RuntimeDebug"))
    else Except.error (SynError.invalidPath (s ++ "::RuntimeDebug"))

/-- `PalletCall::expand`, translated line by line: the enum name defaults
to `Call`; the codec identifier is read from `config.name` (not from
`config.codec_crate` — a slip in the source at `src/src/lib.rs:158`)
with default `codec`; the optional runtime-debug path is parsed; the
variants after the skipped leading sentinel run are processed; the input
declaration's attributes are filtered but then never spliced into the
output token stream (`call_enum_attrs` is unused in the final `quote!`);
and the generics are the values of the key-sorted map. -/
def expand (cfg : PalletCallConfig) (d : DeriveInput) : Except SynError CallEnum :=
  let nameStr := cfg.name.getD "Call"
  if isValidIdent nameStr then
    let codecStr := cfg.name.getD "codec"
    if isValidIdent codecStr then
      match runtimeDebugPath cfg with
      | Except.error e => Except.error e
      | Except.ok rdbg =>
        match processVariants cfg d.typaram [] (processedVariants d) with
        | Except.error e => Except.error e
        | Except.ok r =>
          let _callEnumAttrs :=
            if cfg.keep_comments then d.attrs else removeDocAttributes d.attrs
          match (if r.1.isEmpty then Except.ok [] else checkIdents (r.1.map Prod.snd)) with
          | Except.error e => Except.error e
          | Except.ok gens =>
            Except.ok
              { derives := ["Clone", "PartialEq", "Eq",
                            codecStr ++ "::Encode", codecStr ++ "::Decode"]
                             ++ cfg.additional_derives,
                runtimeDebug := rdbg,
                attrs := cfg.additional_attr,
                ident := nameStr,
                generics := gens,
                variants := r.2 }
    else Except.error (.invalidIdent codecStr)
  else Except.error (.invalidIdent nameStr)

/-! ## Specification-side definitions

These definitions follow the spec's words (not the source) and are used
to compare the implementation against the claimed contract. -/

/-- The context-bound type paths of a field list, in field order. -/
def fieldCtxPaths (tp : String) : List Field → List TypePathT
  | [] => []
  | f :: fs =>
    match f.ty with
    | Ty.path p =>
      if p.mentions tp then p :: fieldCtxPaths tp fs else fieldCtxPaths tp fs
    | Ty.other _ => fieldCtxPaths tp fs

/-- The context-bound type paths of a variant list, scanning variants and
fields in declaration order. -/
def ctxPaths (tp : String) : List Variant → List TypePathT
  | [] => []
  | v :: vs => fieldCtxPaths tp v.fields ++ ctxPaths tp vs

/-- The canonical textual forms of the context-bound types, in scanning
order. -/
def ctxKeyList (tp : String) (vs : List Variant) : List String :=
  (ctxPaths tp vs).map TypePathT.render

/-- Deduplicate a list keeping the first occurrence of each element. -/
def firstSeenAux : List String → List String → List String
  | _, [] => []
  | seen, k :: ks =>
    if k ∈ seen then firstSeenAux seen ks
    else k :: firstSeenAux (k :: seen) ks

/-- The distinct elements of a list in first-seen order. -/
def firstSeen (l : List String) : List String := firstSeenAux [] l

/-- Deduplicate type paths by their rendering, keeping first
occurrences. -/
def firstSeenPathsAux : List String → List TypePathT → List TypePathT
  | _, [] => []
  | seen, p :: ps =>
    if p.render ∈ seen then firstSeenPathsAux seen ps
    else p :: firstSeenPathsAux (p.render :: seen) ps

/-- The generic parameter list the spec prescribes: one generic per
distinct context-bound type expression, listed in the order of first
appearance when scanning variants and fields in declaration order. -/
def specFirstSeenGenerics (cfg : PalletCallConfig) (tp : String) (vs : List Variant) :
    List String :=
  (firstSeenPathsAux [] (ctxPaths tp vs)).map (genericNameOf cfg)

/-! ## Concrete declarations used when analysing the pass -/

/-- The context-bound path `T::A`. -/
def tyTA : TypePathT := ⟨none, ["T", "A"]⟩

/-- The context-bound path `T::B`. -/
def tyTB : TypePathT := ⟨none, ["T", "B"]⟩

/-- The context-bound path `T::B::A` (distinct from `T::A` but with the
same last segment). -/
def tyTBA : TypePathT := ⟨none, ["T", "B", "A"]⟩

/-- The plain path `u8`, not bound to the context parameter. -/
def tyU8 : TypePathT := ⟨none, ["u8"]⟩

/-- The baseline derive list emitted with the default configuration. -/
def stdDerives : List String :=
  ["Clone", "PartialEq", "Eq", "codec::Encode", "codec::Decode"]

/-- A dispatch enum whose sentinel variant comes after a real variant. -/
def declSentinelMid : DeriveInput :=
  ⟨[], "Call", "T", [⟨"transfer", [], none, []⟩, ⟨"__ignore", [], none, []⟩]⟩

/-- A dispatch enum with two context-bound fields whose first-seen order
(`T::B` before `T::A`) differs from their lexicographic key order. -/
def declOrder : DeriveInput :=
  ⟨[], "Call", "T", [⟨"f", [⟨[], Ty.path tyTB, 0⟩, ⟨[], Ty.path tyTA, 1⟩], none, []⟩]⟩

/-- The output `expand` produces for `declOrder` under the default
configuration. -/
def outOrder : CallEnum :=
  ⟨stdDerives, none, [], "Call", ["A", "B"],
   [⟨"F", [⟨[], Ty.path ⟨none, ["B"]⟩, 0⟩, ⟨[], Ty.path ⟨none, ["A"]⟩, 1⟩], none, []⟩]⟩

/-- The generics table `expand` builds for `declOrder`. -/
def tblOrder : Table := [("T :: A", "A"), ("T :: B", "B")]

/-- An enum with no variants, used to inspect the emitted derive list. -/
def declEmpty : DeriveInput := ⟨[], "Call", "T", []⟩

/-- A non-documentation declaration-level attribute. -/
def attrAllow : Attr := ⟨"allow", "(dead_code)"⟩

/-- A configured extra attribute. -/
def attrCfgTest : Attr := ⟨"cfg", "(test)"⟩

/-- An enum carrying a non-documentation declaration-level attribute. -/
def declWithAttr : DeriveInput := ⟨[attrAllow], "Call", "T", [⟨"a", [], none, []⟩]⟩

/-- A documentation attribute. -/
def docAttr : Attr := ⟨"doc", "= \" A doc comment.\""⟩

/-- An enum with a documentation attribute on a field. -/
def declFieldDoc : DeriveInput :=
  ⟨[], "Call", "T", [⟨"transfer", [⟨[docAttr], Ty.path tyU8, 0⟩], none, []⟩]⟩

/-- The output `expand` produces for `declFieldDoc` under the default
configuration. -/
def outFieldDoc : CallEnum :=
  ⟨stdDerives, none, [], "Call", [],
   [⟨"Transfer", [⟨[docAttr], Ty.path tyU8, 0⟩], none, []⟩]⟩

/-- An enum whose two distinct context-bound types (`T::A`, `T::B::A`)
are both named `A` by the default generic-name rule. -/
def declCollide : DeriveInput :=
  ⟨[], "Call", "T", [⟨"f", [⟨[], Ty.path tyTA, 0⟩, ⟨[], Ty.path tyTBA, 1⟩], none, []⟩]⟩

/-- The output `expand` produces for `declCollide` under the default
configuration: the generic `A` is emitted twice. -/
def outCollide : CallEnum :=
  ⟨stdDerives, none, [], "Call", ["A", "A"],
   [⟨"F", [⟨[], Ty.path ⟨none, ["A"]⟩, 0⟩, ⟨[], Ty.path ⟨none, ["A"]⟩, 1⟩], none, []⟩]⟩

/-- An enum with two fields of the identical type `T::A` plus a third
distinct type `T::B::A` that shares the generic name `A`. -/
def declDup : DeriveInput :=
  ⟨[], "Call", "T",
   [⟨"f", [⟨[], Ty.path tyTA, 0⟩, ⟨[], Ty.path tyTA, 1⟩, ⟨[], Ty.path tyTBA, 2⟩],
     none, []⟩]⟩

/-- The generics table `expand` builds for `declDup`. -/
def tblDup : Table := [("T :: A", "A"), ("T :: B :: A", "A")]

/-- The rewritten variants `expand` produces for `declDup`. -/
def varsDup : List Variant :=
  [⟨"F", [⟨[], Ty.path ⟨none, ["A"]⟩, 0⟩, ⟨[], Ty.path ⟨none, ["A"]⟩, 1⟩,
          ⟨[], Ty.path ⟨none, ["A"]⟩, 2⟩], none, []⟩]

/-- An enum whose only non-path field sits inside a leading sentinel
variant. -/
def declBadSentinel : DeriveInput :=
  ⟨[], "Call", "T", [⟨"__ignore", [⟨[], Ty.other "( u8 , u8 )", 0⟩], none, []⟩]⟩

/-- An enum with an explicit variant discriminant. -/
def declDisc : DeriveInput := ⟨[], "Call", "T", [⟨"a", [], some 3, []⟩]⟩

/-- The output `expand` produces for `declDisc` under the default
configuration. -/
def outDisc : CallEnum :=
  ⟨stdDerives, none, [], "Call", [], [⟨"A", [], some 3, []⟩]⟩

/-! ## Properties of the key ordering -/

theorem charListLt_irrefl : ∀ l : List Char, charListLt l l = false
  | [] => rfl
  | c :: t => by simp [charListLt, lt_irrefl, charListLt_irrefl t]

theorem charListLt_trans : ∀ a b c : List Char,
    charListLt a b = true → charListLt b c = true → charListLt a c = true := by
  intro a
  induction a with
  | nil =>
    intro b c h₁ h₂
    cases b with
    | nil => exact absurd h₁ (by simp [charListLt])
    | cons b₁ bt =>
      cases c with
      | nil => exact absurd h₂ (by simp [charListLt])
      | cons c₁ ct => simp [charListLt]
  | cons a₁ at₁ ih =>
    intro b c h₁ h₂
    cases b with
    | nil => exact absurd h₁ (by simp [charListLt])
    | cons b₁ bt =>
      cases c with
      | nil => exact absurd h₂ (by simp [charListLt])
      | cons c₁ ct =>
        by_cases hab : a₁ < b₁
        · by_cases hbc : b₁ < c₁
          · simp [charListLt, lt_trans hab hbc]
          · by_cases hcb : c₁ < b₁
            · simp [charListLt, hbc, hcb] at h₂
            · have hbc₂ : b₁ = c₁ := le_antisymm (not_lt.mp hcb) (not_lt.mp hbc)
              simp [charListLt, hbc₂ ▸ hab]
        · by_cases hba : b₁ < a₁
          · simp [charListLt, hab, hba] at h₁
          · have hab₂ : a₁ = b₁ := le_antisymm (not_lt.mp hba) (not_lt.mp hab)
            simp only [charListLt, if_neg hab, if_neg hba] at h₁
            by_cases hbc : b₁ < c₁
            · simp [charListLt, hab₂ ▸ hbc]
            · by_cases hcb : c₁ < b₁
              · simp [charListLt, hbc, hcb] at h₂
              · simp only [charListLt, if_neg hbc, if_neg hcb] at h₂
                have hbc₂ : b₁ = c₁ := le_antisymm (not_lt.mp hcb) (not_lt.mp hbc)
                have hac : ¬ a₁ < c₁ := by rw [hab₂, hbc₂]; exact lt_irrefl c₁
                have hca : ¬ c₁ < a₁ := by rw [hab₂, hbc₂]; exact lt_irrefl c₁
                simp only [charListLt, if_neg hac, if_neg hca]
                exact ih bt ct h₁ h₂

theorem charListLt_eq_of_not : ∀ a b : List Char,
    charListLt a b = false → charListLt b a = false → a = b := by
  intro a
  induction a with
  | nil =>
    intro b h₁ h₂
    cases b with
    | nil => rfl
    | cons b₁ bt => simp [charListLt] at h₁
  | cons a₁ at₁ ih =>
    intro b h₁ h₂
    cases b with
    | nil => simp [charListLt] at h₂
    | cons b₁ bt =>
      by_cases hab : a₁ < b₁
      · simp [charListLt, hab] at h₁
      · by_cases hba : b₁ < a₁
        · simp [charListLt, hba] at h₂
        · have hab₂ : a₁ = b₁ := le_antisymm (not_lt.mp hba) (not_lt.mp hab)
          simp only [charListLt, if_neg hab, if_neg hba] at h₁
          simp only [charListLt, if_neg hba, if_neg hab] at h₂
          rw [hab₂, ih bt h₁ h₂]

theorem string_toList_inj {a b : String} (h : a.toList = b.toList) : a = b := by
  obtain ⟨da⟩ := a
  obtain ⟨db⟩ := b
  have h₂ : da = db := by simpa [String.toList] using h
  rw [h₂]

theorem strLt_irrefl (a : String) : strLt a a = false := charListLt_irrefl a.toList

theorem strLt_trans {a b c : String} (h₁ : strLt a b = true) (h₂ : strLt b c = true) :
    strLt a c = true :=
  charListLt_trans a.toList b.toList c.toList h₁ h₂

theorem strLt_asymm {a b : String} (h : strLt a b = true) : strLt b a = false := by
  cases hba : strLt b a with
  | false => rfl
  | true => exact absurd (strLt_trans h hba) (by simp [strLt_irrefl])

theorem strLt_eq_of_not {a b : String} (h₁ : strLt a b = false) (h₂ : strLt b a = false) :
    a = b :=
  string_toList_inj (charListLt_eq_of_not a.toList b.toList h₁ h₂)

theorem strLt_ne {a b : String} (h : strLt a b = true) : a ≠ b := by
  intro he
  rw [he] at h
  exact absurd h (by simp [strLt_irrefl])

/-! ## Properties of the generics map -/

theorem tableLookup_tableInsert_self (t : Table) (k v : String) :
    tableLookup (tableInsert t k v).1 k = some (tableInsert t k v).2 := by
  induction t with
  | nil => simp [tableInsert, tableLookup]
  | cons kv t ih =>
    obtain ⟨k', v'⟩ := kv
    by_cases h1 : strLt k k' = true
    · simp [tableInsert, h1, tableLookup]
    · by_cases h2 : k = k'
      · simp [tableInsert, h1, h2, tableLookup, strLt_irrefl]
      · simp [tableInsert, h1, h2, tableLookup, ih]

theorem tableLookup_tableInsert_ne (t : Table) (k v k₀ : String) (h : k₀ ≠ k) :
    tableLookup (tableInsert t k v).1 k₀ = tableLookup t k₀ := by
  induction t with
  | nil => simp [tableInsert, tableLookup, h]
  | cons kv t ih =>
    obtain ⟨k', v'⟩ := kv
    by_cases h1 : strLt k k' = true
    · simp [tableInsert, h1, tableLookup, h]
    · by_cases h2 : k = k'
      · simp [tableInsert, h1, h2, tableLookup, strLt_irrefl]
      · simp [tableInsert, h1, h2, tableLookup, ih]

theorem mem_tableKeys_tableInsert (t : Table) (k v k₀ : String) :
    k₀ ∈ tableKeys (tableInsert t k v).1 ↔ k₀ = k ∨ k₀ ∈ tableKeys t := by
  induction t with
  | nil => simp [tableInsert, tableKeys]
  | cons kv t ih =>
    obtain ⟨k', v'⟩ := kv
    by_cases h1 : strLt k k' = true
    · simp [tableInsert, h1, tableKeys]
    · by_cases h2 : k = k'
      · subst h2
        simp [tableInsert, h1, tableKeys, strLt_irrefl]
      · simp only [tableKeys] at ih
        simp [tableInsert, h1, h2, tableKeys, ih]
        tauto

theorem mem_tableKeys_of_lookup (t : Table) (k v : String)
    (h : tableLookup t k = some v) : k ∈ tableKeys t := by
  induction t with
  | nil => simp [tableLookup] at h
  | cons kv t ih =>
    obtain ⟨k', v'⟩ := kv
    by_cases h1 : k = k'
    · simp [tableKeys, h1]
    · simp only [tableLookup, if_neg h1] at h
      simp only [tableKeys, List.map_cons, List.mem_cons]
      exact Or.inr (by simpa only [tableKeys] using ih h)

theorem tableInsert_of_lookup_some (t : Table) (k v v' : String)
    (hs : List.Pairwise (fun a b => strLt a b = true) (tableKeys t)) (h : tableLookup t k = some v) :
    tableInsert t k v' = (t, v) := by
  induction t with
  | nil => simp [tableLookup] at h
  | cons kv t ih =>
    obtain ⟨k', v''⟩ := kv
    by_cases h2 : k = k'
    · subst h2
      simp only [tableLookup, if_true, eq_self_iff_true, Option.some.injEq] at h
      simp [tableInsert, strLt_irrefl, h]
    · simp only [tableLookup, if_neg h2] at h
      have hk : k ∈ tableKeys t := mem_tableKeys_of_lookup t k v h
      simp only [tableKeys, List.map_cons] at hs
      rcases List.pairwise_cons.mp hs with ⟨h3, h4⟩
      have hlt : strLt k' k = true := h3 k (by simpa [tableKeys] using hk)
      have h1 : strLt k k' = false := strLt_asymm hlt
      have := ih (by simpa [tableKeys] using h4) h
      simp [tableInsert, h1, h2, this]

theorem tableLookup_tableInsert_mono (t : Table) (k v k₀ v₀ : String)
    (hs : List.Pairwise (fun a b => strLt a b = true) (tableKeys t)) (h : tableLookup t k₀ = some v₀) :
    tableLookup (tableInsert t k v).1 k₀ = some v₀ := by
  by_cases hk : k₀ = k
  · subst hk
    rw [tableInsert_of_lookup_some t k₀ v₀ v hs h]
    exact h
  · rw [tableLookup_tableInsert_ne t k v k₀ hk]
    exact h

theorem pairwise_tableKeys_tableInsert (t : Table) (k v : String)
    (hs : List.Pairwise (fun a b => strLt a b = true) (tableKeys t)) :
    List.Pairwise (fun a b => strLt a b = true) (tableKeys (tableInsert t k v).1) := by
  induction t with
  | nil => simp [tableInsert, tableKeys]
  | cons kv t ih =>
    obtain ⟨k', v'⟩ := kv
    obtain ⟨h3, h4⟩ :=
      List.pairwise_cons.mp (by simpa only [tableKeys, List.map_cons] using hs)
    by_cases h1 : strLt k k' = true
    · simp only [tableInsert, if_pos h1, tableKeys, List.map_cons]
      refine List.pairwise_cons.mpr ⟨?_, List.pairwise_cons.mpr ⟨h3, h4⟩⟩
      intro b hb
      rcases List.mem_cons.mp hb with hb | hb
      · exact hb ▸ h1
      · exact strLt_trans h1 (h3 b hb)
    · by_cases h2 : k = k'
      · simp only [tableInsert, if_neg h1, if_pos h2]
        exact hs
      · have h1f : strLt k k' = false := by
          cases hkk : strLt k k' with
          | false => rfl
          | true => exact absurd hkk h1
        have hlt : strLt k' k = true := by
          cases hkk : strLt k' k with
          | true => rfl
          | false => exact absurd (strLt_eq_of_not h1f hkk) h2
        simp only [tableInsert, if_neg h1, if_neg h2, tableKeys, List.map_cons]
        refine List.pairwise_cons.mpr ⟨?_, by simpa only [tableKeys] using ih h4⟩
        intro b hb
        rcases (mem_tableKeys_tableInsert t k v b).mp (by simpa only [tableKeys] using hb)
          with hb | hb
        · exact hb ▸ hlt
        · exact h3 b (by simpa only [tableKeys] using hb)

theorem checkIdents_ok : ∀ (l r : List String), checkIdents l = Except.ok r → r = l := by
  intro l
  induction l with
  | nil =>
    intro r h
    simp only [checkIdents, Except.ok.injEq] at h
    exact h.symm
  | cons s ss ih =>
    intro r h
    by_cases h1 : isValidIdent s
    · simp only [checkIdents, if_pos h1] at h
      cases h2 : checkIdents ss with
      | error e => rw [h2] at h; exact absurd h (by simp)
      | ok r₂ =>
        rw [h2] at h
        simp only [Except.ok.injEq] at h
        rw [← h, ih r₂ h2]
    · simp [checkIdents, h1] at h

/-! ## Properties of first-seen deduplication -/

theorem mem_firstSeenAux : ∀ (l seen : List String) (x : String),
    x ∈ firstSeenAux seen l ↔ x ∈ l ∧ x ∉ seen := by
  intro l
  induction l with
  | nil => intro seen x; simp [firstSeenAux]
  | cons k ks ih =>
    intro seen x
    by_cases h1 : k ∈ seen
    · simp only [firstSeenAux, if_pos h1, ih, List.mem_cons]
      by_cases hxk : x = k
      · simp [hxk, h1]
      · simp [hxk]
    · simp only [firstSeenAux, if_neg h1, List.mem_cons, ih]
      by_cases hxk : x = k
      · simp [hxk, h1]
      · simp [hxk]

theorem nodup_firstSeenAux : ∀ (l seen : List String), (firstSeenAux seen l).Nodup := by
  intro l
  induction l with
  | nil => intro seen; simp [firstSeenAux]
  | cons k ks ih =>
    intro seen
    by_cases h1 : k ∈ seen
    · simpa [firstSeenAux, h1] using ih seen
    · simp only [firstSeenAux, if_neg h1]
      refine List.nodup_cons.mpr ⟨?_, ih (k :: seen)⟩
      intro hc
      exact ((mem_firstSeenAux ks (k :: seen) k).mp hc).2 (List.mem_cons_self k seen)

theorem mem_firstSeen (l : List String) (x : String) : x ∈ firstSeen l ↔ x ∈ l := by
  simp [firstSeen, mem_firstSeenAux]

theorem nodup_firstSeen (l : List String) : (firstSeen l).Nodup :=
  nodup_firstSeenAux l []

/-! ## Properties of the rewriting pass -/

theorem fieldCtxPaths_cons (tp : String) (f : Field) (fs : List Field) :
    fieldCtxPaths tp (f :: fs) = fieldCtxPaths tp [f] ++ fieldCtxPaths tp fs := by
  cases hty : f.ty with
  | path p =>
    by_cases hm : p.mentions tp
    · simp [fieldCtxPaths, hty, hm]
    · simp [fieldCtxPaths, hty, hm]
  | other d => simp [fieldCtxPaths, hty]

theorem processBinding_spec (cfg : PalletCallConfig) (tp : String) (tbl : Table) (f : Field)
    (r : Table × Field)
    (hs : List.Pairwise (fun a b => strLt a b = true) (tableKeys tbl))
    (h : processBinding cfg tp tbl f = Except.ok r) :
    r.2.attrs = f.attrs ∧ f.ty.isPath = true ∧
    List.Pairwise (fun a b => strLt a b = true) (tableKeys r.1) ∧
    (∀ k w, tableLookup tbl k = some w → tableLookup r.1 k = some w) ∧
    (∀ k, k ∈ tableKeys r.1 ↔
      k ∈ tableKeys tbl ∨ k ∈ (fieldCtxPaths tp [f]).map TypePathT.render) ∧
    (∀ p, f.ty = Ty.path p → p.mentions tp = true →
      ∃ w, tableLookup r.1 p.render = some w ∧ r.2.ty = Ty.path ⟨none, [w]⟩) := by
  cases hty : f.ty with
  | other d => simp [processBinding, hty] at h
  | path p =>
    by_cases hm : p.mentions tp
    · by_cases hv : isValidIdent (tableInsert tbl p.render (genericNameOf cfg p)).2
      · simp only [processBinding, hty, hm, if_true, if_pos hv, Except.ok.injEq] at h
        subst h
        refine ⟨rfl, by simp [Ty.isPath], ?_, ?_, ?_, ?_⟩
        · exact pairwise_tableKeys_tableInsert tbl p.render (genericNameOf cfg p) hs
        · intro k w hw
          exact tableLookup_tableInsert_mono tbl p.render (genericNameOf cfg p) k w hs hw
        · intro k
          simp only [fieldCtxPaths, hty, hm, if_true, List.map_cons, List.map_nil,
            List.mem_singleton]
          exact (mem_tableKeys_tableInsert tbl p.render (genericNameOf cfg p) k).trans or_comm
        · intro p' hp' hm'
          have hpp : p' = p := ((Ty.path.injEq p p').mp hp').symm
          subst hpp
          exact ⟨(tableInsert tbl p'.render (genericNameOf cfg p')).2,
            tableLookup_tableInsert_self tbl p'.render (genericNameOf cfg p'), rfl⟩
      · simp [processBinding, hty, hm, hv] at h
    · simp only [processBinding, hty, hm, if_false, Bool.false_eq_true, Except.ok.injEq] at h
      subst h
      refine ⟨rfl, by simp [Ty.isPath], hs, fun k w hw => hw, ?_, ?_⟩
      · intro k
        simp [fieldCtxPaths, hty, hm]
      · intro p' hp' hm'
        have hpp : p' = p := ((Ty.path.injEq p p').mp hp').symm
        subst hpp
        exact absurd hm' (by simpa using hm)

theorem processFields_spec (cfg : PalletCallConfig) (tp : String) :
    ∀ (fs : List Field) (tbl : Table) (r : Table × List Field),
    List.Pairwise (fun a b => strLt a b = true) (tableKeys tbl) →
    processFields cfg tp tbl fs = Except.ok r →
    List.Pairwise (fun a b => strLt a b = true) (tableKeys r.1) ∧
    (∀ k w, tableLookup tbl k = some w → tableLookup r.1 k = some w) ∧
    (∀ k, k ∈ tableKeys r.1 ↔
      k ∈ tableKeys tbl ∨ k ∈ (fieldCtxPaths tp fs).map TypePathT.render) ∧
    r.2.length = fs.length ∧
    (∀ f ∈ fs, f.ty.isPath = true) ∧
    (∀ j (hj : j < fs.length) (hj' : j < r.2.length),
      (r.2.get ⟨j, hj'⟩).attrs = (fs.get ⟨j, hj⟩).attrs ∧
      (∀ p, (fs.get ⟨j, hj⟩).ty = Ty.path p → p.mentions tp = true →
        ∃ w, tableLookup r.1 p.render = some w ∧
          (r.2.get ⟨j, hj'⟩).ty = Ty.path ⟨none, [w]⟩)) := by
  intro fs
  induction fs with
  | nil =>
    intro tbl r hs h
    simp only [processFields, Except.ok.injEq] at h
    subst h
    refine ⟨hs, fun k w hw => hw, ?_, rfl, by simp, ?_⟩
    · intro k
      simp [fieldCtxPaths]
    · intro j hj hj'
      exact absurd hj (by simp)
  | cons f fs ih =>
    intro tbl r hs h
    simp only [processFields] at h
    split at h
    · exact absurd h (by simp)
    next rb heq =>
      split at h
      · exact absurd h (by simp)
      next rf heq2 =>
        simp only [Except.ok.injEq] at h
        subst h
        obtain ⟨hattr, hpath, hsort, hmono, hkeys, hchar⟩ :=
          processBinding_spec cfg tp tbl f rb hs heq
        obtain ⟨ihsort, ihmono, ihkeys, ihlen, ihpath, ihpt⟩ := ih rb.1 rf hsort heq2
        refine ⟨ihsort, fun k w hw => ihmono k w (hmono k w hw), ?_, by simp [ihlen], ?_, ?_⟩
        · intro k
          rw [fieldCtxPaths_cons]
          simp only [List.map_append, List.mem_append]
          rw [ihkeys k, hkeys k]
          tauto
        · intro g hg
          rcases List.mem_cons.mp hg with hg | hg
          · exact hg ▸ hpath
          · exact ihpath g hg
        · intro j hj hj'
          cases j with
          | zero =>
            refine ⟨hattr, ?_⟩
            intro p hp hm
            obtain ⟨w, hw, hty⟩ := hchar p hp hm
            exact ⟨w, ihmono p.render w hw, hty⟩
          | succ j =>
            exact ihpt j (Nat.lt_of_succ_lt_succ hj) (Nat.lt_of_succ_lt_succ hj')

theorem processVariant_spec (cfg : PalletCallConfig) (tp : String) (tbl : Table) (v : Variant)
    (r : Table × Variant)
    (hs : List.Pairwise (fun a b => strLt a b = true) (tableKeys tbl))
    (h : processVariant cfg tp tbl v = Except.ok r) :
    List.Pairwise (fun a b => strLt a b = true) (tableKeys r.1) ∧
    (∀ k w, tableLookup tbl k = some w → tableLookup r.1 k = some w) ∧
    (∀ k, k ∈ tableKeys r.1 ↔ k ∈ tableKeys tbl ∨
      k ∈ (fieldCtxPaths tp v.fields).map TypePathT.render) ∧
    r.2.discriminant = v.discriminant ∧
    r.2.attrs = (if cfg.keep_comments then v.attrs else removeDocAttributes v.attrs) ∧
    r.2.ident = variantNameOf cfg v.ident ∧
    r.2.fields.length = v.fields.length ∧
    (∀ f ∈ v.fields, f.ty.isPath = true) ∧
    (∀ j (hj : j < v.fields.length) (hj' : j < r.2.fields.length),
      (r.2.fields.get ⟨j, hj'⟩).attrs = (v.fields.get ⟨j, hj⟩).attrs ∧
      (∀ p, (v.fields.get ⟨j, hj⟩).ty = Ty.path p → p.mentions tp = true →
        ∃ w, tableLookup r.1 p.render = some w ∧
          (r.2.fields.get ⟨j, hj'⟩).ty = Ty.path ⟨none, [w]⟩)) := by
  by_cases hv : isValidIdent (variantNameOf cfg v.ident)
  · simp only [processVariant, if_pos hv] at h
    split at h
    · exact absurd h (by simp)
    next rf heq =>
      simp only [Except.ok.injEq] at h
      subst h
      obtain ⟨hsort, hmono, hkeys, hlen, hpath, hpt⟩ :=
        processFields_spec cfg tp v.fields tbl rf hs heq
      exact ⟨hsort, hmono, hkeys, rfl, rfl, rfl, hlen, hpath, hpt⟩
  · simp [processVariant, hv] at h

theorem ctxKeyList_cons (tp : String) (v : Variant) (vs : List Variant) :
    ctxKeyList tp (v :: vs) =
      (fieldCtxPaths tp v.fields).map TypePathT.render ++ ctxKeyList tp vs := by
  simp [ctxKeyList, ctxPaths]

theorem processVariants_spec (cfg : PalletCallConfig) (tp : String) :
    ∀ (vs : List Variant) (tbl : Table) (r : Table × List Variant),
    List.Pairwise (fun a b => strLt a b = true) (tableKeys tbl) →
    processVariants cfg tp tbl vs = Except.ok r →
    List.Pairwise (fun a b => strLt a b = true) (tableKeys r.1) ∧
    (∀ k w, tableLookup tbl k = some w → tableLookup r.1 k = some w) ∧
    (∀ k, k ∈ tableKeys r.1 ↔ k ∈ tableKeys tbl ∨ k ∈ ctxKeyList tp vs) ∧
    r.2.length = vs.length ∧
    (∀ v ∈ vs, ∀ f ∈ v.fields, f.ty.isPath = true) ∧
    (∀ i (hi : i < vs.length) (hi' : i < r.2.length),
      (r.2.get ⟨i, hi'⟩).discriminant = (vs.get ⟨i, hi⟩).discriminant ∧
      (r.2.get ⟨i, hi'⟩).attrs =
        (if cfg.keep_comments then (vs.get ⟨i, hi⟩).attrs
         else removeDocAttributes (vs.get ⟨i, hi⟩).attrs) ∧
      (r.2.get ⟨i, hi'⟩).ident = variantNameOf cfg (vs.get ⟨i, hi⟩).ident ∧
      (r.2.get ⟨i, hi'⟩).fields.length = (vs.get ⟨i, hi⟩).fields.length ∧
      (∀ j (hj : j < (vs.get ⟨i, hi⟩).fields.length)
         (hj' : j < (r.2.get ⟨i, hi'⟩).fields.length),
        ((r.2.get ⟨i, hi'⟩).fields.get ⟨j, hj'⟩).attrs =
          ((vs.get ⟨i, hi⟩).fields.get ⟨j, hj⟩).attrs ∧
        (∀ p, ((vs.get ⟨i, hi⟩).fields.get ⟨j, hj⟩).ty = Ty.path p →
          p.mentions tp = true →
          ∃ w, tableLookup r.1 p.render = some w ∧
            ((r.2.get ⟨i, hi'⟩).fields.get ⟨j, hj'⟩).ty = Ty.path ⟨none, [w]⟩))) := by
  intro vs
  induction vs with
  | nil =>
    intro tbl r hs h
    simp only [processVariants, Except.ok.injEq] at h
    subst h
    refine ⟨hs, fun k w hw => hw, ?_, rfl, by simp, ?_⟩
    · intro k
      simp [ctxKeyList, ctxPaths]
    · intro i hi hi'
      exact absurd hi (by simp)
  | cons v vs ih =>
    intro tbl r hs h
    simp only [processVariants] at h
    split at h
    · exact absurd h (by simp)
    next rv heq =>
      split at h
      · exact absurd h (by simp)
      next rv₂ heq2 =>
        simp only [Except.ok.injEq] at h
        subst h
        obtain ⟨hsort, hmono, hkeys, hdisc, hattr, hident, hflen, hfpath, hfpt⟩ :=
          processVariant_spec cfg tp tbl v rv hs heq
        obtain ⟨ihsort, ihmono, ihkeys, ihlen, ihpath, ihpt⟩ := ih rv.1 rv₂ hsort heq2
        refine ⟨ihsort, fun k w hw => ihmono k w (hmono k w hw), ?_, by simp [ihlen], ?_, ?_⟩
        · intro k
          rw [ctxKeyList_cons]
          simp only [List.mem_append]
          rw [ihkeys k, hkeys k]
          tauto
        · intro g hg
          rcases List.mem_cons.mp hg with hg | hg
          · exact hg ▸ hfpath
          · exact ihpath g hg
        · intro i hi hi'
          cases i with
          | zero =>
            refine ⟨hdisc, hattr, hident, hflen, ?_⟩
            intro j hj hj'
            obtain ⟨ha, hc⟩ := hfpt j hj hj'
            refine ⟨ha, ?_⟩
            intro p hp hm
            obtain ⟨w, hw, hty⟩ := hc p hp hm
            exact ⟨w, ihmono p.render w hw, hty⟩
          | succ i =>
            exact ihpt i (Nat.lt_of_succ_lt_succ hi) (Nat.lt_of_succ_lt_succ hi')

theorem expand_ok_inv (cfg : PalletCallConfig) (d : DeriveInput) (o : CallEnum)
    (h : expand cfg d = Except.ok o) :
    ∃ r : Table × List Variant,
      processVariants cfg d.typaram [] (processedVariants d) = Except.ok r ∧
      o.variants = r.2 ∧ o.generics = r.1.map Prod.snd ∧
      o.attrs = cfg.additional_attr ∧
      o.ident = cfg.name.getD "Call" ∧
      o.derives = ["Clone", "PartialEq", "Eq",
        (cfg.name.getD "codec") ++ "::Encode", (cfg.name.getD "codec") ++ "::Decode"]
          ++ cfg.additional_derives := by
  simp only [expand] at h
  split at h
  · split at h
    · split at h
      · exact absurd h (by simp)
      next rdbg heqr =>
        split at h
        · exact absurd h (by simp)
        next rv heqv =>
          split at h
          · exact absurd h (by simp)
          next gens heqg =>
            simp only [Except.ok.injEq] at h
            subst h
            have hg : gens = rv.1.map Prod.snd := by
              by_cases he : rv.1.isEmpty
              · simp only [if_pos he, Except.ok.injEq] at heqg
                rw [← heqg, List.isEmpty_iff.mp he]
                simp
              · simp only [if_neg he] at heqg
                exact checkIdents_ok (rv.1.map Prod.snd) gens heqg
            exact ⟨rv, heqv, rfl, hg, rfl, rfl, rfl⟩
    · exact absurd h (by simp)
  · exact absurd h (by simp)

/-! ## The claims -/

/-- C1: the claim says a variant whose name case-insensitively equals
`__ignore` is absent from the output regardless of its position.  The
source uses `skip_while`, so a sentinel that follows a non-sentinel
variant is kept: on `declSentinelMid` the pass succeeds and the output
contains the variant `Ignore` produced from the sentinel. -/
theorem c1_sentinel_after_first_variant_survives :
    declSentinelMid.variants.any (fun v => strLower v.ident == "__ignore") = true ∧
    (expand {} declSentinelMid).map (fun o => o.variants.map Variant.ident) =
      Except.ok ["Transfer", "Ignore"] :=
  ⟨by rfl, by rfl⟩

/-- C2 counterexample: on `declOrder` the first-seen order of the two
context-bound types is `[B, A]`, but the pass emits the generics in the
lexicographic order of the canonical keys, `[A, B]`. -/
theorem c2_first_seen_order_violated :
    specFirstSeenGenerics {} "T" (processedVariants declOrder) = ["B", "A"] ∧
    (expand {} declOrder).map CallEnum.generics = Except.ok ["A", "B"] ∧
    (["A", "B"] : List String) ≠ ["B", "A"] :=
  ⟨by rfl, by rfl, by decide⟩

/-- C2 (amended): the emitted generic parameter list equals the values of
the generics table, whose keys are strictly sorted in ascending string
order and are exactly the canonical forms of the context-bound type
expressions of the processed variants — i.e. the order is the
lexicographic order of the canonical textual forms, not first-seen
order. -/
theorem c2_generics_sorted_by_canonical_key (cfg : PalletCallConfig) (d : DeriveInput)
    (r : Table × List Variant) (o : CallEnum)
    (hp : processVariants cfg d.typaram [] (processedVariants d) = Except.ok r)
    (he : expand cfg d = Except.ok o) :
    o.generics = r.1.map Prod.snd ∧
    List.Pairwise (fun a b => strLt a b = true) (r.1.map Prod.fst) ∧
    (∀ k, k ∈ r.1.map Prod.fst ↔ k ∈ ctxKeyList d.typaram (processedVariants d)) := by
  obtain ⟨r₂, hp₂, _, hg, _, _, _⟩ := expand_ok_inv cfg d o he
  have hrr : r₂ = r := by
    rw [hp₂] at hp
    exact (Except.ok.injEq r₂ r).mp hp
  subst hrr
  obtain ⟨hsort, _, hkeys, _, _, _⟩ :=
    processVariants_spec cfg d.typaram (processedVariants d) [] r₂ (by simp [tableKeys]) hp
  refine ⟨hg, by simpa only [tableKeys] using hsort, ?_⟩
  intro k
  have hk := hkeys k
  simp only [tableKeys, List.map_nil, List.not_mem_nil, false_or] at hk
  exact hk

/-- Witness for C2: on `declOrder` the generics are the table values and
the table keys are strictly increasing. -/
theorem c2_generics_sorted_by_canonical_key_witness :
    outOrder.generics = tblOrder.map Prod.snd ∧
    List.Pairwise (fun a b => strLt a b = true) (tblOrder.map Prod.fst) := by
  have H := c2_generics_sorted_by_canonical_key {} declOrder
    (tblOrder, outOrder.variants) outOrder (by rfl) (by rfl)
  exact ⟨H.1, H.2.1⟩

/-- C3: the claim says the encode/decode derives are namespaced by the
`codec_crate` configuration field, independently of the configured
name.  The source reads `config.name` instead: with `name = Transfer`
and `codec_crate = scale` the derives use `Transfer::`, and with the
name unset they use the default `codec::` even though `codec_crate` is
set to `scale`. -/
theorem c3_codec_namespace_follows_name :
    (expand { name := some "Transfer", codec_crate := some "scale" } declEmpty).map
        CallEnum.derives =
      Except.ok ["Clone", "PartialEq", "Eq", "Transfer::Encode", "Transfer::Decode"] ∧
    (expand { codec_crate := some "scale" } declEmpty).map CallEnum.derives =
      Except.ok stdDerives :=
  ⟨by rfl, by rfl⟩

/-- C4: the claim says the output's attribute list starts with the
input's declaration-level attributes.  The source computes the filtered
`call_enum_attrs` but never splices them into the emitted tokens: only
the configured extra attributes appear, and the (non-documentation)
input attribute `#[allow(dead_code)]` is silently dropped. -/
theorem c4_input_attributes_dropped :
    declWithAttr.attrs = [attrAllow] ∧ attrAllow.isDoc = false ∧
    (expand { additional_attr := [attrCfgTest] } declWithAttr).map CallEnum.attrs =
      Except.ok [attrCfgTest] :=
  ⟨by rfl, by rfl, by rfl⟩

/-- C5 counterexample: with the default configuration
(`keep_comments = false`) a documentation attribute attached to a field
survives into the output verbatim, contradicting the claim that no
documentation attribute survives at any level. -/
theorem c5_field_doc_attribute_survives :
    ({} : PalletCallConfig).keep_comments = false ∧ docAttr.isDoc = true ∧
    (expand {} declFieldDoc).map
        (fun o => o.variants.map (fun v => v.fields.map Field.attrs)) =
      Except.ok [[[docAttr]]] :=
  ⟨by rfl, by rfl, by rfl⟩

/-- C5 (amended): the output's declaration-level attribute list is
exactly the configured extra attributes (input declaration attributes
never reach the output); variant-level attributes are filtered for
documentation exactly when `keep_comments` is unset; and field-level
attributes are always carried through verbatim, documentation attributes
included. -/
theorem c5_attribute_filtering (cfg : PalletCallConfig) (d : DeriveInput) (o : CallEnum)
    (he : expand cfg d = Except.ok o) :
    o.attrs = cfg.additional_attr ∧
    o.variants.length = (processedVariants d).length ∧
    (∀ i (hi : i < (processedVariants d).length) (hi' : i < o.variants.length),
      (o.variants.get ⟨i, hi'⟩).attrs =
        (if cfg.keep_comments then ((processedVariants d).get ⟨i, hi⟩).attrs
         else removeDocAttributes ((processedVariants d).get ⟨i, hi⟩).attrs) ∧
      (o.variants.get ⟨i, hi'⟩).fields.length =
        ((processedVariants d).get ⟨i, hi⟩).fields.length ∧
      (∀ j (hj : j < ((processedVariants d).get ⟨i, hi⟩).fields.length)
         (hj' : j < (o.variants.get ⟨i, hi'⟩).fields.length),
        ((o.variants.get ⟨i, hi'⟩).fields.get ⟨j, hj'⟩).attrs =
          (((processedVariants d).get ⟨i, hi⟩).fields.get ⟨j, hj⟩).attrs)) := by
  obtain ⟨r, hp, hvars, _, hattrs, _, _⟩ := expand_ok_inv cfg d o he
  obtain ⟨_, _, _, hlen, _, hpt⟩ :=
    processVariants_spec cfg d.typaram (processedVariants d) [] r (by simp [tableKeys]) hp
  rw [hvars]
  refine ⟨hattrs, hlen, ?_⟩
  intro i hi hi'
  obtain ⟨_, ha, _, hfl, hfa⟩ := hpt i hi hi'
  exact ⟨ha, hfl, fun j hj hj₂ => (hfa j hj hj₂).1⟩

/-- Witness for C5: on `declFieldDoc` with the default configuration the
output declaration carries no extra attributes, the variant attributes
are the doc-filtered input attributes, and the field attributes are the
unfiltered input field attributes. -/
theorem c5_attribute_filtering_witness :
    outFieldDoc.attrs = ([] : List Attr) ∧
    (outFieldDoc.variants.get ⟨0, by decide⟩).attrs =
      removeDocAttributes ((processedVariants declFieldDoc).get ⟨0, by decide⟩).attrs ∧
    ((outFieldDoc.variants.get ⟨0, by decide⟩).fields.get ⟨0, by decide⟩).attrs =
      (((processedVariants declFieldDoc).get ⟨0, by decide⟩).fields.get
        ⟨0, by decide⟩).attrs := by
  have H := c5_attribute_filtering {} declFieldDoc outFieldDoc (by rfl)
  exact ⟨H.1, (H.2.2 0 (by decide) (by decide)).1,
    (H.2.2 0 (by decide) (by decide)).2.2 0 (by decide) (by decide)⟩

/-- C6: the claim says a naming collision between two canonically
distinct context-bound types must be reported as an error.  On
`declCollide` the types `T::A` and `T::B::A` are distinct yet both named
`A` by the default rule, and the pass succeeds, silently emitting the
duplicate generic parameter list `[A, A]`. -/
theorem c6_collision_not_reported :
    tyTA.render ≠ tyTBA.render ∧
    genericNameOf {} tyTA = genericNameOf {} tyTBA ∧
    (expand {} declCollide).map CallEnum.generics = Except.ok ["A", "A"] :=
  ⟨by decide, by rfl, by rfl⟩

/-- C6 (amended): the pass never reports a naming collision; instead it
keeps one table entry per distinct canonical context-bound type
expression, so the emitted generic list has exactly one element per
distinct type expression — when two distinct expressions share a name
the name is emitted once per expression, as a duplicate parameter. -/
theorem c6_one_generic_per_distinct_type (cfg : PalletCallConfig) (d : DeriveInput)
    (o : CallEnum) (he : expand cfg d = Except.ok o) :
    o.generics.length =
      (firstSeen (ctxKeyList d.typaram (processedVariants d))).length := by
  obtain ⟨r, hp, _, hgen, _, _, _⟩ := expand_ok_inv cfg d o he
  obtain ⟨hsort, _, hkeys, _, _, _⟩ :=
    processVariants_spec cfg d.typaram (processedVariants d) [] r (by simp [tableKeys]) hp
  have hnd : (tableKeys r.1).Nodup :=
    List.Pairwise.imp (fun h => strLt_ne h) hsort
  have hnd₂ : (firstSeen (ctxKeyList d.typaram (processedVariants d))).Nodup :=
    nodup_firstSeen _
  have hmem : ∀ k, k ∈ tableKeys r.1 ↔
      k ∈ firstSeen (ctxKeyList d.typaram (processedVariants d)) := by
    intro k
    rw [mem_firstSeen]
    have hk := hkeys k
    simpa only [tableKeys, List.map_nil, List.not_mem_nil, false_or] using hk
  have hfin : (tableKeys r.1).toFinset =
      (firstSeen (ctxKeyList d.typaram (processedVariants d))).toFinset := by
    ext x
    simp only [List.mem_toFinset]
    exact hmem x
  have hcard₁ := List.toFinset_card_of_nodup hnd
  have hcard₂ := List.toFinset_card_of_nodup hnd₂
  have hlength : (tableKeys r.1).length =
      (firstSeen (ctxKeyList d.typaram (processedVariants d))).length := by
    rw [← hcard₁, hfin, hcard₂]
  rw [hgen, List.length_map]
  calc r.1.length = (tableKeys r.1).length := by simp [tableKeys]
  _ = _ := hlength

/-- Witness for C6: on `declCollide` the pass emits two generics, one
per distinct context-bound type expression. -/
theorem c6_one_generic_per_distinct_type_witness :
    outCollide.generics.length =
      (firstSeen (ctxKeyList "T" (processedVariants declCollide))).length :=
  c6_one_generic_per_distinct_type {} declCollide outCollide (by rfl)

/-- C7 counterexample: `declDup` has two fields with the identical
context-bound type `T::A`; the pass succeeds and both are rewritten to
the shared generic `A`, but `A` appears twice (not exactly once) in the
emitted generic list, because the distinct type `T::B::A` is also named
`A`. -/
theorem c7_shared_generic_not_unique :
    tyTA.mentions "T" = true ∧
    ((declDup.variants.get ⟨0, by decide⟩).fields.get ⟨0, by decide⟩).ty =
      ((declDup.variants.get ⟨0, by decide⟩).fields.get ⟨1, by decide⟩).ty ∧
    (expand {} declDup).map CallEnum.generics = Except.ok ["A", "A"] ∧
    List.count "A" ["A", "A"] ≠ 1 :=
  ⟨by rfl, by rfl, by rfl, by decide⟩

/-- C7 (amended): fields with syntactically identical canonical
context-bound type expressions are rewritten to the same generic type,
and the generics table holds exactly one entry per distinct canonical
expression (its keys are duplicate-free); the emitted name is unique in
the generic list unless a distinct expression maps to the same name. -/
theorem c7_identical_types_share_generic (cfg : PalletCallConfig) (d : DeriveInput)
    (r : Table × List Variant)
    (hp : processVariants cfg d.typaram [] (processedVariants d) = Except.ok r) :
    (r.1.map Prod.fst).Nodup ∧
    (∀ i₁ (hi₁ : i₁ < (processedVariants d).length) (hi₁' : i₁ < r.2.length)
       j₁ (hj₁ : j₁ < ((processedVariants d).get ⟨i₁, hi₁⟩).fields.length)
       (hj₁' : j₁ < (r.2.get ⟨i₁, hi₁'⟩).fields.length)
       i₂ (hi₂ : i₂ < (processedVariants d).length) (hi₂' : i₂ < r.2.length)
       j₂ (hj₂ : j₂ < ((processedVariants d).get ⟨i₂, hi₂⟩).fields.length)
       (hj₂' : j₂ < (r.2.get ⟨i₂, hi₂'⟩).fields.length)
       (p₁ p₂ : TypePathT),
      (((processedVariants d).get ⟨i₁, hi₁⟩).fields.get ⟨j₁, hj₁⟩).ty = Ty.path p₁ →
      (((processedVariants d).get ⟨i₂, hi₂⟩).fields.get ⟨j₂, hj₂⟩).ty = Ty.path p₂ →
      p₁.mentions d.typaram = true → p₂.mentions d.typaram = true →
      p₁.render = p₂.render →
      ((r.2.get ⟨i₁, hi₁'⟩).fields.get ⟨j₁, hj₁'⟩).ty =
        ((r.2.get ⟨i₂, hi₂'⟩).fields.get ⟨j₂, hj₂'⟩).ty) := by
  obtain ⟨hsort, _, _, _, _, hpt⟩ :=
    processVariants_spec cfg d.typaram (processedVariants d) [] r (by simp [tableKeys]) hp
  refine ⟨List.Pairwise.imp (fun h => strLt_ne h)
    (by simpa only [tableKeys] using hsort), ?_⟩
  intro i₁ hi₁ hi₁' j₁ hj₁ hj₁' i₂ hi₂ hi₂' j₂ hj₂ hj₂' p₁ p₂ hp₁ hp₂ hm₁ hm₂ hrender
  obtain ⟨w₁, hw₁, hty₁⟩ := ((hpt i₁ hi₁ hi₁').2.2.2.2 j₁ hj₁ hj₁').2 p₁ hp₁ hm₁
  obtain ⟨w₂, hw₂, hty₂⟩ := ((hpt i₂ hi₂ hi₂').2.2.2.2 j₂ hj₂ hj₂').2 p₂ hp₂ hm₂
  rw [hrender] at hw₁
  rw [hw₂] at hw₁
  have hww : w₂ = w₁ := Option.some.inj hw₁
  rw [hty₁, hty₂, hww]

/-- Witness for C7: on `declDup` the table keys are duplicate-free and
the two occurrences of `T::A` are rewritten to the same generic type. -/
theorem c7_identical_types_share_generic_witness :
    (tblDup.map Prod.fst).Nodup ∧
    ((varsDup.get ⟨0, by decide⟩).fields.get ⟨0, by decide⟩).ty =
      ((varsDup.get ⟨0, by decide⟩).fields.get ⟨1, by decide⟩).ty := by
  have H := c7_identical_types_share_generic {} declDup (tblDup, varsDup) (by rfl)
  exact ⟨H.1, H.2 0 (by decide) (by decide) 0 (by decide) (by decide)
    0 (by decide) (by decide) 1 (by decide) (by decide) tyTA tyTA (by rfl) (by rfl) (by rfl) (by rfl) (by rfl)⟩

/-- C8: the claim says any input containing a non-path field fails with
an unsupported-field-type error.  A non-path field inside the skipped
leading sentinel run is never examined: on `declBadSentinel` the pass
succeeds and returns an enum with no variants. -/
theorem c8_nonpath_field_in_sentinel_not_rejected :
    declBadSentinel.variants.any (fun v => v.fields.any (fun f => !f.ty.isPath)) = true ∧
    (expand {} declBadSentinel).map CallEnum.variants = Except.ok [] :=
  ⟨by rfl, by rfl⟩

/-- C8 (amended): a non-path field causes the pass to fail only when it
lies outside the skipped leading sentinel run; equivalently, whenever
the pass succeeds, every field of every variant that survives the
leading-sentinel skip has a dotted-path type. -/
theorem c8_success_implies_processed_fields_are_paths (cfg : PalletCallConfig)
    (d : DeriveInput) (o : CallEnum) (he : expand cfg d = Except.ok o) :
    ∀ v ∈ processedVariants d, ∀ f ∈ v.fields, f.ty.isPath = true := by
  obtain ⟨r, hp, _, _, _, _, _⟩ := expand_ok_inv cfg d o he
  obtain ⟨_, _, _, _, hpath, _⟩ :=
    processVariants_spec cfg d.typaram (processedVariants d) [] r (by simp [tableKeys]) hp
  exact hpath

/-- Witness for C8: the pass succeeds on `declOrder`, whose processed
fields therefore all have path types. -/
theorem c8_success_implies_processed_fields_are_paths_witness :
    (⟨[], Ty.path tyTB, 0⟩ : Field).ty.isPath = true :=
  c8_success_implies_processed_fields_are_paths {} declOrder outOrder (by rfl)
    (⟨"f", [⟨[], Ty.path tyTB, 0⟩, ⟨[], Ty.path tyTA, 1⟩], none, []⟩ : Variant)
    (by decide) (⟨[], Ty.path tyTB, 0⟩ : Field) (by decide)

/-- C9: the pass is a deterministic pure function of the configuration
and the input declaration: equal inputs give equal outputs (in the
embedding the pass is a function, so two runs on the same values are
definitionally equal). -/
theorem c9_deterministic (cfg : PalletCallConfig) (d d₂ : DeriveInput) (h : d = d₂) :
    expand cfg d = expand cfg d₂ := by
  rw [h]

/-- Witness for C9: two runs on `declOrder` agree. -/
theorem c9_deterministic_witness : expand {} declOrder = expand {} declOrder :=
  c9_deterministic {} declOrder declOrder rfl

/-- C10: every variant processed into the output keeps the discriminant
of the corresponding input variant unchanged. -/
theorem c10_discriminants_carried_through (cfg : PalletCallConfig) (d : DeriveInput)
    (o : CallEnum) (he : expand cfg d = Except.ok o) :
    o.variants.length = (processedVariants d).length ∧
    ∀ i (hi : i < (processedVariants d).length) (hi' : i < o.variants.length),
      (o.variants.get ⟨i, hi'⟩).discriminant =
        ((processedVariants d).get ⟨i, hi⟩).discriminant := by
  obtain ⟨r, hp, hvars, _, _, _, _⟩ := expand_ok_inv cfg d o he
  obtain ⟨_, _, _, hlen, _, hpt⟩ :=
    processVariants_spec cfg d.typaram (processedVariants d) [] r (by simp [tableKeys]) hp
  rw [hvars]
  exact ⟨hlen, fun i hi hi' => (hpt i hi hi').1⟩

/-- Witness for C10: the explicit discriminant `3` of `declDisc` is
carried through to the output variant. -/
theorem c10_discriminants_carried_through_witness :
    (outDisc.variants.get ⟨0, by decide⟩).discriminant =
      ((processedVariants declDisc).get ⟨0, by decide⟩).discriminant :=
  (c10_discriminants_carried_through {} declDisc outDisc (by rfl)).2 0 (by decide) (by decide)

end PalletExtract
